import Mathlib

/-!
Verification of the Atelier model-building frontend and of its fit
orchestration contract.

The first part embeds, directly from the TypeScript source, the pure state
logic of `ModelBuilderPage.tsx` (term-list editing, the `handleFit` flow and
its error surface) and of `ModelConfigPage.tsx` / `lib/constants.ts`
(family and link selection).

The second part models the fit orchestration subsystem (record store with
version allocation, job state machine, progress broadcast hub).  That
subsystem is described by the specification but its code is not part of
this repository checkout, so it is modelled from the specification's words;
each such definition carries a doc comment saying so.
-/

namespace Atelier

/-! ## Term specifications (`types/model.ts`) -/

/-- The `TermType` union from `types/model.ts`. -/
inductive TermType
  | categorical
  | target_encoding
  | frequency_encoding
  | linear
  | bs
  | ns
  | expression
deriving DecidableEq, Repr

/-- The `monotonicity` union from `types/model.ts`. -/
inductive Monotonicity
  | increasing
  | decreasing
deriving DecidableEq, Repr

/-- The `TermSpec` interface from `types/model.ts`.  Optional fields become
`Option`; an absent field (`undefined`) is `none`. -/
structure TermSpec where
  column : String
  type : TermType
  df : Option Nat
  k : Option Nat
  monotonicity : Option Monotonicity
  expr : Option String
  label : String
deriving DecidableEq, Repr

/-- The predicate used by both `addTerm` (`findIndex`) and `removeTerm`
(`filter`) in `ModelBuilderPage.tsx`: same column, same type, same `expr`
(with `undefined === undefined` holding in JS, so `none = none` here). -/
def sameTriple (t : TermSpec) (col : String) (ty : TermType)
    (expr : Option String) : Bool :=
  decide (t.column = col) && decide (t.type = ty) && decide (t.expr = expr)

/-- The identifying triple of a term entry. -/
def termKey (t : TermSpec) : String × TermType × Option String :=
  (t.column, t.type, t.expr)

/-- `addTerm` from `ModelBuilderPage.tsx` (lines 255-269): replace the first
entry with the same column+type+expr if one exists, else append. -/
def addTerm (terms : List TermSpec) (spec : TermSpec) : List TermSpec :=
  match terms.findIdx? (fun t => sameTriple t spec.column spec.type spec.expr) with
  | some i => terms.set i spec
  | none => terms ++ [spec]

/-- `removeTerm` from `ModelBuilderPage.tsx` (lines 271-273): keep exactly
the entries that do not match the column+type+expr triple. -/
def removeTerm (terms : List TermSpec) (col : String) (ty : TermType)
    (expr : Option String) : List TermSpec :=
  terms.filter (fun t => !(sameTriple t col ty expr))

/-- One user edit of the term list. -/
inductive TermOp
  | add (spec : TermSpec)
  | remove (col : String) (ty : TermType) (expr : Option String)

/-- Apply one edit, exactly as the two callbacks do. -/
def applyTermOp (terms : List TermSpec) : TermOp → List TermSpec
  | .add s => addTerm terms s
  | .remove c ty e => removeTerm terms c ty e

/-- Run a sequence of edits from the page's initial state `useState([])`. -/
def runTermOps (ops : List TermOp) : List TermSpec :=
  ops.foldl applyTermOp []

/-! ## Family and link selection (`lib/constants.ts`, `ModelConfigPage.tsx`) -/

/-- The `Family` union from `lib/constants.ts`. -/
inductive Family
  | gaussian
  | poisson
  | binomial
  | gamma
  | tweedie
  | quasipoisson
  | quasibinomial
  | negbinomial
deriving DecidableEq, Repr

/-- The `Link` union from `lib/constants.ts`. -/
inductive Link
  | identity
  | log
  | logit
  | inverse
deriving DecidableEq, Repr

/-- `CANONICAL_LINKS` from `lib/constants.ts` (lines 13-22). -/
def CANONICAL_LINKS : Family → Link
  | .gaussian => .identity
  | .poisson => .log
  | .binomial => .logit
  | .gamma => .log
  | .tweedie => .log
  | .quasipoisson => .log
  | .quasibinomial => .logit
  | .negbinomial => .log

/-- The `family` / `link` component state of `ModelConfigPage.tsx`:
`link = null` means "no user override". -/
structure ConfigLinkState where
  family : Option Family
  link : Option Link
deriving DecidableEq, Repr

/-- `canonicalLink` from `ModelConfigPage.tsx` line 127:
`family ? CANONICAL_LINKS[family] : null`. -/
def canonicalLink (s : ConfigLinkState) : Option Link :=
  s.family.map CANONICAL_LINKS

/-- `effectiveLink` from `ModelConfigPage.tsx` line 128:
`link ?? canonicalLink`. -/
def effectiveLink (s : ConfigLinkState) : Option Link :=
  match s.link with
  | some l => some l
  | none => canonicalLink s

/-- `handleFamilyChange` from `ModelConfigPage.tsx` lines 167-170:
`setFamily(f); setLink(null)`. -/
def handleFamilyChange (_s : ConfigLinkState) (f : Family) : ConfigLinkState :=
  { family := some f, link := none }

/-- The link selector's `onChange` from `ModelConfigPage.tsx` line 479:
`setLink(v === canonicalLink ? null : v)`. -/
def handleLinkSelect (s : ConfigLinkState) (v : Link) : ConfigLinkState :=
  { s with link := if canonicalLink s = some v then none else some v }

/-! ## The fit flow of `ModelBuilderPage.tsx` (`handleFit`, lines 299-353) -/

/-- The slice of the `FitResult` interface (`types/model.ts`) that
`handleFit` reads when auto-saving.  The remaining fields do not influence
any control flow, so they are folded into `payload`. -/
structure FitResult where
  deviance : Option Int
  aic : Option Int
  payload : Nat
deriving DecidableEq, Repr

/-- The slice of `ModelConfig` (`types/model.ts`) that `handleFit` reads.
`projectId` and `datasetPath` are `string | null` in the source. -/
structure ModelConfig where
  projectId : Option String
  datasetPath : Option String
  response : String
  family : String
  link : String
deriving DecidableEq, Repr

/-- A history entry as displayed by `HistoryPanel` (a `ModelSummary`). -/
structure ModelSummary where
  id : String
  version : Nat
deriving DecidableEq, Repr

/-- The component state touched by `handleFit`:
`fitting`, `fitResult`, `fitError`, `currentVersion`, `history`. -/
structure FitPageState where
  fitting : Bool
  fitResult : Option FitResult
  fitError : Option String
  currentVersion : Option Nat
  history : List ModelSummary
deriving DecidableEq, Repr

/-- A serialized term as produced by `serializeTerms`
(`ModelBuilderPage.tsx` lines 86-95): the `label` field is dropped and
absent fields become explicit nulls. -/
structure SerializedTerm where
  column : String
  type : TermType
  df : Option Nat
  k : Option Nat
  monotonicity : Option Monotonicity
  expr : Option String
deriving DecidableEq, Repr

/-- `serializeTerms` from `ModelBuilderPage.tsx` lines 86-95. -/
def serializeTerms (terms : List TermSpec) : List SerializedTerm :=
  terms.map (fun t => ⟨t.column, t.type, t.df, t.k, t.monotonicity, t.expr⟩)

/-- The API calls `handleFit` can issue, with the term payload each carries. -/
inductive ApiRequest
  | fit (terms : List SerializedTerm)
  | save (terms : List SerializedTerm)
deriving DecidableEq, Repr

/-- The term payload of a request. -/
def ApiRequest.terms : ApiRequest → List SerializedTerm
  | .fit ts => ts
  | .save ts => ts

/-- JS truthiness of an optional string (`null`, `undefined` and `""` are
falsy). -/
def truthy : Option String → Bool
  | none => false
  | some s => !(s.isEmpty)

/-- `err.message || "Model fit failed"` from `handleFit` line 349. -/
def errMessage (e : String) : String :=
  if e.isEmpty then "Model fit failed" else e

/-- `handleFit` from `ModelBuilderPage.tsx` lines 299-353 as a pure state
transformer.  The responses of the `/fit` and `/models/save` calls and of
the subsequent history refetch are parameters (`fitResp`, `saveResp`,
`histResp`); the returned list records the API requests actually issued.

Control flow mirrored from the source: the guard returns before touching
any state; then `fitting := true`, `fitError := null`, `fitResult := null`;
on `/fit` success the result is stored and, when a project id is present,
the model is auto-saved (a save failure is only logged); on `/fit` failure
only `fitError` is set; `finally` clears `fitting`. -/
def handleFit (config : Option ModelConfig) (terms : List TermSpec)
    (fitResp : Except String FitResult) (saveResp : Except String Nat)
    (histResp : List ModelSummary) (s : FitPageState) :
    FitPageState × List ApiRequest :=
  match config with
  | none => (s, [])
  | some cfg =>
    if !(truthy cfg.datasetPath) || terms.isEmpty then (s, [])
    else
      let s1 : FitPageState :=
        { s with fitting := true, fitError := none, fitResult := none }
      let serialized := serializeTerms terms
      match fitResp with
      | .error e =>
        ({ s1 with fitError := some (errMessage e), fitting := false },
         [ApiRequest.fit serialized])
      | .ok data =>
        let s2 : FitPageState := { s1 with fitResult := some data }
        if truthy cfg.projectId then
          match saveResp with
          | .error _ =>
            ({ s2 with fitting := false },
             [ApiRequest.fit serialized, ApiRequest.save serialized])
          | .ok v =>
            ({ s2 with currentVersion := some v, history := histResp,
                       fitting := false },
             [ApiRequest.fit serialized, ApiRequest.save serialized])
        else ({ s2 with fitting := false }, [ApiRequest.fit serialized])

/-- What the fit-error branch of the page renders
(`ModelBuilderPage.tsx` lines 763-772): the stored message, plus one fixed
caption below it. -/
structure FailureView where
  message : String
  suggestion : String
deriving DecidableEq, Repr

/-- The failure surface rendered for `fitError`
(`ModelBuilderPage.tsx` lines 769-770). -/
def fitFailureView (msg : String) : FailureView :=
  { message := msg, suggestion := "Check your terms and try again" }

/-! ## Fit orchestration subsystem

The orchestrator, record store and broadcast hub are described in the
specification (sections 3-4) but their code is not part of this checkout
(only the frontend caller of `/fit` is).  The definitions below are
therefore modelled from the specification's words. -/

/-- Modelled from the spec: the `status` state machine of a `ModelAttempt`
(`pending -> running -> completed | failed`); the orchestrator code
owning it is missing from the checkout. -/
inductive JobStatus
  | pending
  | running
  | completed
  | failed
deriving DecidableEq, Repr

/-- Modelled from the spec: the closed failure taxonomy of section 7; the
adapter-boundary classification code is missing from the checkout. -/
inductive FailureKind
  | didNotConverge
  | invalidDesign
  | estimationFailed
  | encodingFailed
  | specInvalid
  | artifactFailed
  | unclassified
deriving DecidableEq, Repr

/-- Modelled from the spec: the failure fields of a terminal attempt
(kind, human message). -/
structure FitFailureInfo where
  kind : FailureKind
  message : String
deriving DecidableEq, Repr

/-- Modelled from the spec: the fitted metrics written on completion
(deviance, AIC, convergence flag, iteration count). -/
structure FittedMetrics where
  deviance : Int
  aic : Int
  converged : Bool
  iterations : Nat
deriving DecidableEq, Repr

/-- Modelled from the spec: one `ModelAttempt` record of the Model Record
Store (store code missing from the checkout).  `spec` is the frozen model
specification, kept opaque. -/
structure OrchAttempt where
  id : Nat
  projectId : Nat
  version : Nat
  spec : Nat
  status : JobStatus
  result : Option FittedMetrics
  failure : Option FitFailureInfo
deriving DecidableEq, Repr

/-- Modelled from the spec: the kind of a transient `ProgressEvent`. -/
inductive EventKind
  | started
  | progress
  | completed
  | failed
deriving DecidableEq, Repr

/-- Modelled from the spec: a transient `ProgressEvent` (payloads are
irrelevant to the ordering claims and omitted). -/
structure ProgressEvent where
  jobId : Nat
  kind : EventKind
deriving DecidableEq, Repr

/-- Modelled from the spec: the Native Engine Adapter,
`fit(dataset, spec) -> FittedModel | FitFailure`, an opaque synchronous
function of the frozen specification. -/
def Adapter : Type := Nat → Except FitFailureInfo FittedMetrics

/-- Modelled from the spec: the combined state of the Model Record Store
(attempt table and id source) and of the Progress Broadcast Hub
(current subscriptions and the delivery log).  Each published event is
logged together with the observers subscribed to its job at publish time,
which is exactly the set the hub delivers it to. -/
structure OrchState where
  attempts : List OrchAttempt
  nextId : Nat
  subs : List (Nat × Nat)
  log : List (ProgressEvent × List Nat)
deriving DecidableEq, Repr

/-- Modelled from the spec: the empty store and hub at process start. -/
def initState : OrchState := ⟨[], 0, [], []⟩

/-- Count of attempts recorded for a project. -/
def countProject (attempts : List OrchAttempt) (p : Nat) : Nat :=
  (attempts.filter (fun a => a.projectId == p)).length

/-- `get(id)` of the Model Record Store. -/
def getAttempt (s : OrchState) (j : Nat) : Option OrchAttempt :=
  s.attempts.find? (fun a => a.id == j)

/-- The observers currently subscribed to job `j`. -/
def observersOf (s : OrchState) (j : Nat) : List Nat :=
  (s.subs.filter (fun q => q.2 == j)).map (fun q => q.1)

/-- Modelled from the spec: `publish(jobId, event)` of the Progress
Broadcast Hub — fan the event out to all current observers of the job
(possibly none). -/
def publish (s : OrchState) (e : ProgressEvent) : OrchState :=
  { s with log := s.log ++ [(e, observersOf s e.jobId)] }

/-- Modelled from the spec: hub cleanup after a terminal event — drop the
job's subscriber bookkeeping. -/
def dropSubs (s : OrchState) (j : Nat) : OrchState :=
  { s with subs := s.subs.filter (fun q => !(q.2 == j)) }

/-- Update the attempt with the given id in place. -/
def setAttempt (s : OrchState) (j : Nat) (f : OrchAttempt → OrchAttempt) :
    OrchState :=
  { s with attempts := s.attempts.map (fun a => if a.id == j then f a else a) }

/-- Modelled from the spec: `submit(projectId, datasetId, spec) -> jobId` —
allocate the next version for the project under the serialization point,
create a `pending` attempt, and return its identifier at once; the fit
itself is only scheduled, not run.  The orchestrator code is missing from
the checkout. -/
def submit (s : OrchState) (p spc : Nat) : Nat × OrchState :=
  let v := countProject s.attempts p + 1
  let att : OrchAttempt :=
    { id := s.nextId, projectId := p, version := v, spec := spc,
      status := .pending, result := none, failure := none }
  (s.nextId, { s with attempts := s.attempts ++ [att], nextId := s.nextId + 1 })

/-- Modelled from the spec: the atomic steps of the subsystem.  A submitted
job's execution runs independently of the submitting request, so its
phases (`start`, per-iteration `progress`, `finish`) appear as separate
steps that interleave freely with other submissions and with observers
subscribing and unsubscribing. -/
inductive OrchCmd
  | submit (p spc : Nat)
  | start (j : Nat)
  | progress (j : Nat)
  | finish (j : Nat)
  | subscribe (o j : Nat)
  | unsubscribe (o j : Nat)

/-- Modelled from the spec: one atomic step.  `start` transitions
`pending -> running` and emits `started`; `progress` emits one progress
event while running; `finish` invokes the adapter, writes exactly the
result fields (on success) or exactly the failure fields (on failure),
emits the terminal event, and then drops the job's subscriber set. -/
def execCmd (adapter : Adapter) (s : OrchState) : OrchCmd → OrchState
  | .submit p spc => (submit s p spc).2
  | .start j =>
    match getAttempt s j with
    | some a =>
      if a.status = .pending then
        publish (setAttempt s j (fun b => { b with status := .running }))
          ⟨j, .started⟩
      else s
    | none => s
  | .progress j =>
    match getAttempt s j with
    | some a => if a.status = .running then publish s ⟨j, .progress⟩ else s
    | none => s
  | .finish j =>
    match getAttempt s j with
    | some a =>
      if a.status = .running then
        match adapter a.spec with
        | .ok r =>
          dropSubs
            (publish
              (setAttempt s j
                (fun b => { b with status := .completed, result := some r }))
              ⟨j, .completed⟩) j
        | .error f =>
          dropSubs
            (publish
              (setAttempt s j
                (fun b => { b with status := .failed, failure := some f }))
              ⟨j, .failed⟩) j
      else s
    | none => s
  | .subscribe o j => { s with subs := s.subs ++ [(o, j)] }
  | .unsubscribe o j =>
    { s with subs := s.subs.filter (fun q => !(q.1 == o && q.2 == j)) }

/-- The states reachable by running a command sequence from the initial
state.  A command list is one linearization of the concurrent execution. -/
def reach (adapter : Adapter) (cmds : List OrchCmd) : OrchState :=
  cmds.foldl (execCmd adapter) initState

/-- The versions recorded for a project, in record order. -/
def versionsOf (s : OrchState) (p : Nat) : List Nat :=
  (s.attempts.filter (fun a => a.projectId == p)).map (fun a => a.version)

/-- The kinds of all events published for job `j`, in publish order. -/
def publishedKinds (s : OrchState) (j : Nat) : List EventKind :=
  (s.log.filter (fun e => e.1.jobId == j)).map (fun e => e.1.kind)

/-- The kinds of the events for job `j` delivered to observer `o`, in
delivery order: the published events whose subscriber snapshot contains
`o`. -/
def deliveredKinds (s : OrchState) (o j : Nat) : List EventKind :=
  (s.log.filter (fun e => e.1.jobId == j && e.2.contains o)).map
    (fun e => e.1.kind)

/-- Newest-version-first ordering on attempts. -/
def versionDesc (a b : OrchAttempt) : Prop := b.version ≤ a.version

instance : DecidableRel versionDesc := fun a b => Nat.decLe b.version a.version

instance : IsTotal OrchAttempt versionDesc :=
  ⟨fun a b => (Nat.le_total b.version a.version).imp id id⟩

instance : IsTrans OrchAttempt versionDesc :=
  ⟨fun _ _ _ h1 h2 => Nat.le_trans h2 h1⟩

/-- Modelled from the spec: `listByProject(projectId, orderBy=version
desc)` of the Model Record Store — the project's attempts ordered
newest-version-first. -/
def listByProject (s : OrchState) (p : Nat) : List OrchAttempt :=
  (s.attempts.filter (fun a => a.projectId == p)).insertionSort versionDesc

/-- An event sequence is prefix-consistent for one job: an optional
`started`, then progress events, then at most one terminal event, and
nothing after it. -/
def orderlyKinds (l : List EventKind) : Prop :=
  ∃ st n fin,
    (st = [] ∨ st = [EventKind.started]) ∧
    (fin = [] ∨ fin = [EventKind.completed] ∨ fin = [EventKind.failed]) ∧
    l = st ++ List.replicate n EventKind.progress ++ fin

/-! ## Invariants of the orchestration model -/

/-- The result/failure fields an attempt may have in each status. -/
def statusInv (a : OrchAttempt) : Prop :=
  (a.status = .pending → a.result = none ∧ a.failure = none) ∧
  (a.status = .running → a.result = none ∧ a.failure = none) ∧
  (a.status = .completed → a.result.isSome ∧ a.failure = none) ∧
  (a.status = .failed → a.failure.isSome ∧ a.result = none)

/-- The event history a job in a given status must have published. -/
def jobShape (st : JobStatus) (l : List EventKind) : Prop :=
  match st with
  | .pending => l = []
  | .running => ∃ n, l = .started :: List.replicate n .progress
  | .completed => ∃ n, l = .started :: List.replicate n .progress ++ [.completed]
  | .failed => ∃ n, l = .started :: List.replicate n .progress ++ [.failed]

/-- The event history of job `j` is consistent with its record. -/
def shapeAt (s : OrchState) (j : Nat) : Prop :=
  match getAttempt s j with
  | none => publishedKinds s j = []
  | some a => jobShape a.status (publishedKinds s j)

/-- The global invariant: fresh ids, unique ids, status-dependent field
population, gapless per-project versions, and per-job event shapes. -/
def OrchInv (s : OrchState) : Prop :=
  (∀ a ∈ s.attempts, a.id < s.nextId) ∧
  (s.attempts.map (fun a => a.id)).Nodup ∧
  (∀ a ∈ s.attempts, statusInv a) ∧
  (∀ p, versionsOf s p = List.range' 1 (countProject s.attempts p)) ∧
  (∀ j, shapeAt s j)

theorem shapeAt_some (s : OrchState) (j : Nat) (a : OrchAttempt)
    (h : getAttempt s j = some a)
    (hs : jobShape a.status (publishedKinds s j)) : shapeAt s j := by
  unfold shapeAt
  rw [h]
  exact hs

theorem shapeAt_none (s : OrchState) (j : Nat) (h : getAttempt s j = none)
    (hpk : publishedKinds s j = []) : shapeAt s j := by
  unfold shapeAt
  rw [h]
  exact hpk

theorem shapeAt_elim_some (s : OrchState) (j : Nat) (a : OrchAttempt)
    (hs : shapeAt s j) (h : getAttempt s j = some a) :
    jobShape a.status (publishedKinds s j) := by
  unfold shapeAt at hs
  rw [h] at hs
  exact hs

theorem shapeAt_elim_none (s : OrchState) (j : Nat) (hs : shapeAt s j)
    (h : getAttempt s j = none) : publishedKinds s j = [] := by
  unfold shapeAt at hs
  rw [h] at hs
  exact hs

theorem attempts_publish (s : OrchState) (e : ProgressEvent) :
    (publish s e).attempts = s.attempts := rfl

theorem getAttempt_publish (s : OrchState) (e : ProgressEvent) (j : Nat) :
    getAttempt (publish s e) j = getAttempt s j := rfl

theorem getAttempt_dropSubs (s : OrchState) (j j' : Nat) :
    getAttempt (dropSubs s j) j' = getAttempt s j' := rfl

theorem publishedKinds_setAttempt (s : OrchState) (j j' : Nat)
    (f : OrchAttempt → OrchAttempt) :
    publishedKinds (setAttempt s j f) j' = publishedKinds s j' := rfl

theorem publishedKinds_dropSubs (s : OrchState) (j j' : Nat) :
    publishedKinds (dropSubs s j) j' = publishedKinds s j' := rfl

theorem publishedKinds_publish_self (s : OrchState) (j : Nat) (k : EventKind) :
    publishedKinds (publish s ⟨j, k⟩) j = publishedKinds s j ++ [k] := by
  simp [publishedKinds, publish, List.filter_append]

theorem publishedKinds_publish_ne (s : OrchState) (j j' : Nat) (k : EventKind)
    (h : j' ≠ j) :
    publishedKinds (publish s ⟨j, k⟩) j' = publishedKinds s j' := by
  simp [publishedKinds, publish, List.filter_append, Ne.symm h]

theorem getAttempt_setAttempt (s : OrchState) (j j' : Nat)
    (f : OrchAttempt → OrchAttempt) (hf : ∀ a, (f a).id = a.id) :
    getAttempt (setAttempt s j f) j' =
      if j' = j then (getAttempt s j').map f else getAttempt s j' := by
  unfold getAttempt setAttempt
  rw [List.find?_map]
  have hp : ∀ a : OrchAttempt,
      ((fun b => b.id == j') ∘ fun a => if a.id == j then f a else a) a
        = (fun b => b.id == j') a := by
    intro a
    by_cases h : a.id = j <;> simp [h, hf]
  rw [funext hp]
  by_cases hj : j' = j
  · subst hj
    cases hfind : s.attempts.find? (fun b => b.id == j') with
    | none => simp
    | some a =>
      have ha : a.id = j' := by
        have := List.find?_some hfind
        simpa using this
      simp [ha]
  · cases hfind : s.attempts.find? (fun b => b.id == j') with
    | none => simp [hj]
    | some a =>
      have ha : a.id = j' := by
        have := List.find?_some hfind
        simpa using this
      have hne : a.id ≠ j := by rw [ha]; exact hj
      simp [hj, hne]

theorem attempts_setAttempt (s : OrchState) (j : Nat)
    (f : OrchAttempt → OrchAttempt) :
    (setAttempt s j f).attempts
      = s.attempts.map (fun a => if a.id == j then f a else a) := rfl

theorem countProject_map_preserve (l : List OrchAttempt)
    (g : OrchAttempt → OrchAttempt) (hg : ∀ a, (g a).projectId = a.projectId)
    (p : Nat) : countProject (l.map g) p = countProject l p := by
  unfold countProject
  rw [List.filter_map, List.length_map]
  congr 1
  apply List.filter_congr
  intro a _
  simp [hg]

theorem versionsOf_setAttempt (s : OrchState) (j : Nat)
    (f : OrchAttempt → OrchAttempt) (hfp : ∀ a, (f a).projectId = a.projectId)
    (hfv : ∀ a, (f a).version = a.version) (p : Nat) :
    versionsOf (setAttempt s j f) p = versionsOf s p := by
  unfold versionsOf
  rw [attempts_setAttempt, List.filter_map, List.map_map]
  have h1 : List.filter
      ((fun a => a.projectId == p) ∘ fun a => if a.id == j then f a else a)
      s.attempts = List.filter (fun a => a.projectId == p) s.attempts := by
    apply List.filter_congr
    intro a _
    by_cases h : a.id = j <;> simp [h, hfp]
  rw [h1]
  apply List.map_congr_left
  intro a _
  by_cases h : a.id = j <;> simp [h, hfv]

theorem getAttempt_none_of_fresh (s : OrchState)
    (h : ∀ a ∈ s.attempts, a.id < s.nextId) (j : Nat) (hj : s.nextId ≤ j) :
    getAttempt s j = none := by
  unfold getAttempt
  rw [List.find?_eq_none]
  intro a ha
  simp only [beq_iff_eq]
  intro hid
  exact absurd (hid ▸ h a ha) (not_lt.mpr hj)

theorem find?_id_of_mem (l : List OrchAttempt)
    (hnd : (l.map (fun a => a.id)).Nodup) (a : OrchAttempt) (ha : a ∈ l) :
    l.find? (fun b => b.id == a.id) = some a := by
  induction l with
  | nil => cases ha
  | cons x xs ih =>
    rw [List.map_cons, List.nodup_cons] at hnd
    by_cases hx : x.id = a.id
    · cases List.mem_cons.mp ha with
      | inl h => subst h; simp [List.find?_cons]
      | inr h =>
        exact absurd (hx ▸ List.mem_map_of_mem (fun b => b.id) h) hnd.1
    · have ha' : a ∈ xs := by
        cases List.mem_cons.mp ha with
        | inl h => exact absurd (h ▸ rfl) hx
        | inr h => exact h
      have hb : (x.id == a.id) = false := by simpa using hx
      rw [List.find?_cons]
      simp only [hb]
      exact ih hnd.2 ha'

theorem getAttempt_submit (s : OrchState) (p spc j : Nat) :
    getAttempt (submit s p spc).2 j =
      (getAttempt s j).or
        (if s.nextId = j
         then some ⟨s.nextId, p, countProject s.attempts p + 1, spc,
                    .pending, none, none⟩
         else none) := by
  unfold getAttempt submit
  by_cases h : s.nextId = j
  · have hb : (s.nextId == j) = true := beq_iff_eq.mpr h
    simp [List.find?_append, List.find?_cons, hb, h]
  · have hb : (s.nextId == j) = false := by
      simpa using h
    simp [List.find?_append, List.find?_cons, hb, h]

theorem versionsOf_submit (s : OrchState) (p spc q : Nat) :
    versionsOf (submit s p spc).2 q =
      versionsOf s q ++
        (if p = q then [countProject s.attempts p + 1] else []) := by
  unfold versionsOf submit
  simp only [List.filter_append, List.map_append]
  congr 1
  by_cases hq : p = q
  · subst hq
    simp
  · have hb : (p == q) = false := by simpa using hq
    simp [List.filter_cons, hb, hq]

theorem countProject_submit (s : OrchState) (p spc q : Nat) :
    countProject (submit s p spc).2.attempts q =
      countProject s.attempts q + (if p = q then 1 else 0) := by
  unfold countProject submit
  simp only [List.filter_append, List.length_append]
  congr 1
  by_cases hq : p = q
  · subst hq
    simp
  · have hb : (p == q) = false := by simpa using hq
    simp [List.filter_cons, hb, hq]

theorem inv_submit (s : OrchState) (p spc : Nat) (h : OrchInv s) :
    OrchInv (submit s p spc).2 := by
  obtain ⟨h1, h2, h3, h4, h5⟩ := h
  refine ⟨?_, ?_, ?_, ?_, ?_⟩
  · intro a ha
    rcases List.mem_append.mp ha with hl | hr
    · exact Nat.lt_succ_of_lt (h1 a hl)
    · rcases List.mem_singleton.mp hr with rfl
      exact Nat.lt_succ_self _
  · show ((s.attempts ++ _).map (fun a => a.id)).Nodup
    rw [List.map_append, List.map_singleton]
    apply List.Nodup.append h2 (List.nodup_singleton _)
    intro x hx hy
    rcases List.mem_singleton.mp hy with rfl
    rcases List.mem_map.mp hx with ⟨a, ha, hid⟩
    exact absurd (hid ▸ h1 a ha) (lt_irrefl _)
  · intro a ha
    rcases List.mem_append.mp ha with hl | hr
    · exact h3 a hl
    · rcases List.mem_singleton.mp hr with rfl
      simp [statusInv]
  · intro q
    rw [versionsOf_submit, countProject_submit]
    by_cases hq : p = q
    · subst hq
      rw [if_pos rfl, if_pos rfl, List.range'_1_concat, h4 p,
        Nat.add_comm 1 (countProject s.attempts p)]
    · rw [if_neg hq, if_neg hq, List.append_nil, Nat.add_zero]
      exact h4 q
  · intro j
    have hlog : publishedKinds (submit s p spc).2 j = publishedKinds s j := rfl
    have hg := getAttempt_submit s p spc j
    cases hga : getAttempt s j with
    | some a =>
      have ha : getAttempt (submit s p spc).2 j = some a := by
        rw [hg, hga, Option.or_some]
      apply shapeAt_some _ _ a ha
      rw [hlog]
      exact shapeAt_elim_some s j a (h5 j) hga
    | none =>
      have hpk : publishedKinds s j = [] := shapeAt_elim_none s j (h5 j) hga
      by_cases hj : s.nextId = j
      · have ha : getAttempt (submit s p spc).2 j
            = some ⟨s.nextId, p, countProject s.attempts p + 1, spc,
                    .pending, none, none⟩ := by
          rw [hg, hga, if_pos hj, Option.none_or]
        apply shapeAt_some _ _ _ ha
        rw [hlog, hpk]
        exact rfl
      · have ha : getAttempt (submit s p spc).2 j = none := by
          rw [hg, hga, if_neg hj, Option.none_or]
        apply shapeAt_none _ _ ha
        rw [hlog]
        exact hpk

theorem apply_if_eq_id (j : Nat) (f : OrchAttempt → OrchAttempt)
    (hf : ∀ b, (f b).id = b.id) (c : OrchAttempt) :
    (if c.id == j then f c else c).id = c.id := by
  by_cases hcj : c.id = j <;> simp [hcj, hf]

theorem map_id_setAttempt (s : OrchState) (j : Nat)
    (f : OrchAttempt → OrchAttempt) (hf : ∀ b, (f b).id = b.id) :
    (setAttempt s j f).attempts.map (fun a => a.id)
      = s.attempts.map (fun a => a.id) := by
  rw [attempts_setAttempt, List.map_map]
  apply List.map_congr_left
  intro c _
  exact apply_if_eq_id j f hf c

theorem countProject_setAttempt (s : OrchState) (j : Nat)
    (f : OrchAttempt → OrchAttempt)
    (hfp : ∀ b, (f b).projectId = b.projectId) (p : Nat) :
    countProject (setAttempt s j f).attempts p = countProject s.attempts p := by
  rw [attempts_setAttempt]
  apply countProject_map_preserve
  intro c
  by_cases hcj : c.id = j <;> simp [hcj, hfp]

theorem statusInv_setAttempt (s : OrchState) (j : Nat) (a : OrchAttempt)
    (hga : getAttempt s j = some a)
    (hnd : (s.attempts.map (fun b => b.id)).Nodup)
    (h3 : ∀ b ∈ s.attempts, statusInv b) (f : OrchAttempt → OrchAttempt)
    (hfa : statusInv (f a)) :
    ∀ b ∈ (setAttempt s j f).attempts, statusInv b := by
  intro b hb
  rw [attempts_setAttempt] at hb
  rcases List.mem_map.mp hb with ⟨c, hc, rfl⟩
  by_cases hcj : c.id = j
  · have hfind : getAttempt s c.id = some c := find?_id_of_mem s.attempts hnd c hc
    rw [hcj, hga] at hfind
    have hca : a = c := by injection hfind
    subst hca
    simp only [hcj, beq_self_eq_true, if_true]
    exact hfa
  · have hb2 : (c.id == j) = false := by simpa using hcj
    simp only [hb2, Bool.false_eq_true, if_false]
    exact h3 c hc

theorem shape_update (s : OrchState) (j : Nat) (a : OrchAttempt)
    (hga : getAttempt s j = some a) (f : OrchAttempt → OrchAttempt)
    (hfi : ∀ b, (f b).id = b.id) (k : EventKind)
    (h5 : ∀ j', shapeAt s j')
    (hnew : jobShape (f a).status (publishedKinds s j ++ [k])) :
    ∀ j', shapeAt (publish (setAttempt s j f) ⟨j, k⟩) j' := by
  intro j'
  have hget : getAttempt (publish (setAttempt s j f) ⟨j, k⟩) j'
      = if j' = j then (getAttempt s j').map f else getAttempt s j' := by
    rw [getAttempt_publish, getAttempt_setAttempt s j j' f hfi]
  by_cases hj : j' = j
  · subst hj
    rw [if_pos rfl, hga] at hget
    apply shapeAt_some _ _ (f a) hget
    rw [publishedKinds_publish_self, publishedKinds_setAttempt]
    exact hnew
  · rw [if_neg hj] at hget
    cases hga' : getAttempt s j' with
    | some b =>
      rw [hga'] at hget
      apply shapeAt_some _ _ b hget
      rw [publishedKinds_publish_ne _ _ _ _ hj, publishedKinds_setAttempt]
      exact shapeAt_elim_some s j' b (h5 j') hga'
    | none =>
      rw [hga'] at hget
      apply shapeAt_none _ _ hget
      rw [publishedKinds_publish_ne _ _ _ _ hj, publishedKinds_setAttempt]
      exact shapeAt_elim_none s j' (h5 j') hga'

theorem inv_mark (s : OrchState) (j : Nat) (a : OrchAttempt)
    (hga : getAttempt s j = some a) (f : OrchAttempt → OrchAttempt)
    (hfi : ∀ b, (f b).id = b.id)
    (hfp : ∀ b, (f b).projectId = b.projectId)
    (hfv : ∀ b, (f b).version = b.version)
    (hfa : statusInv (f a)) (k : EventKind)
    (hnew : jobShape (f a).status (publishedKinds s j ++ [k]))
    (h : OrchInv s) :
    OrchInv (publish (setAttempt s j f) ⟨j, k⟩) := by
  obtain ⟨h1, h2, h3, h4, h5⟩ := h
  refine ⟨?_, ?_, ?_, ?_, ?_⟩
  · intro b hb
    rw [attempts_publish] at hb
    have hmem : b.id ∈ (setAttempt s j f).attempts.map (fun a => a.id) :=
      List.mem_map_of_mem _ hb
    rw [map_id_setAttempt s j f hfi] at hmem
    rcases List.mem_map.mp hmem with ⟨c, hc, hcid⟩
    show b.id < s.nextId
    rw [← hcid]
    exact h1 c hc
  · show ((setAttempt s j f).attempts.map (fun a => a.id)).Nodup
    rw [map_id_setAttempt s j f hfi]
    exact h2
  · intro b hb
    rw [attempts_publish] at hb
    exact statusInv_setAttempt s j a hga h2 h3 f hfa b hb
  · intro p
    show versionsOf (setAttempt s j f) p
        = List.range' 1 (countProject (setAttempt s j f).attempts p)
    rw [versionsOf_setAttempt s j f hfp hfv p,
      countProject_setAttempt s j f hfp p]
    exact h4 p
  · exact shape_update s j a hga f hfi k h5 hnew

theorem inv_publish_progress (s : OrchState) (j : Nat) (a : OrchAttempt)
    (hga : getAttempt s j = some a) (hst : a.status = .running)
    (h : OrchInv s) : OrchInv (publish s ⟨j, .progress⟩) := by
  obtain ⟨h1, h2, h3, h4, h5⟩ := h
  refine ⟨h1, h2, h3, h4, ?_⟩
  intro j'
  by_cases hj : j' = j
  · subst hj
    have hs := shapeAt_elim_some s j' a (h5 j') hga
    apply shapeAt_some _ _ a (by rw [getAttempt_publish]; exact hga)
    rw [publishedKinds_publish_self, hst]
    rw [hst] at hs
    obtain ⟨n, hn⟩ := hs
    refine ⟨n + 1, ?_⟩
    rw [hn, List.cons_append, List.replicate_succ']
  · cases hga' : getAttempt s j' with
    | some b =>
      apply shapeAt_some _ _ b (by rw [getAttempt_publish]; exact hga')
      rw [publishedKinds_publish_ne _ _ _ _ hj]
      exact shapeAt_elim_some s j' b (h5 j') hga'
    | none =>
      apply shapeAt_none _ _ (by rw [getAttempt_publish]; exact hga')
      rw [publishedKinds_publish_ne _ _ _ _ hj]
      exact shapeAt_elim_none s j' (h5 j') hga'

theorem inv_set_subs (s : OrchState) (x : List (Nat × Nat)) (h : OrchInv s) :
    OrchInv { s with subs := x } := h

theorem inv_init : OrchInv initState := by
  refine ⟨?_, ?_, ?_, ?_, ?_⟩
  · intro a ha
    cases ha
  · exact List.nodup_nil
  · intro a ha
    cases ha
  · intro p
    rfl
  · intro j
    exact rfl

theorem execCmd_start_run (ad : Adapter) (s : OrchState) (j : Nat)
    (a : OrchAttempt) (hga : getAttempt s j = some a)
    (hst : a.status = .pending) :
    execCmd ad s (.start j)
      = publish (setAttempt s j (fun b => { b with status := .running }))
          ⟨j, .started⟩ := by
  simp only [execCmd]
  rw [hga]
  show (if a.status = JobStatus.pending then _ else s) = _
  rw [if_pos hst]

theorem execCmd_start_skip (ad : Adapter) (s : OrchState) (j : Nat)
    (a : OrchAttempt) (hga : getAttempt s j = some a)
    (hst : ¬a.status = .pending) : execCmd ad s (.start j) = s := by
  simp only [execCmd]
  rw [hga]
  show (if a.status = JobStatus.pending then _ else s) = s
  rw [if_neg hst]

theorem execCmd_start_none (ad : Adapter) (s : OrchState) (j : Nat)
    (hga : getAttempt s j = none) : execCmd ad s (.start j) = s := by
  simp only [execCmd]
  rw [hga]

theorem execCmd_progress_run (ad : Adapter) (s : OrchState) (j : Nat)
    (a : OrchAttempt) (hga : getAttempt s j = some a)
    (hst : a.status = .running) :
    execCmd ad s (.progress j) = publish s ⟨j, .progress⟩ := by
  simp only [execCmd]
  rw [hga]
  show (if a.status = JobStatus.running then _ else s) = _
  rw [if_pos hst]

theorem execCmd_progress_skip (ad : Adapter) (s : OrchState) (j : Nat)
    (a : OrchAttempt) (hga : getAttempt s j = some a)
    (hst : ¬a.status = .running) : execCmd ad s (.progress j) = s := by
  simp only [execCmd]
  rw [hga]
  show (if a.status = JobStatus.running then _ else s) = s
  rw [if_neg hst]

theorem execCmd_progress_none (ad : Adapter) (s : OrchState) (j : Nat)
    (hga : getAttempt s j = none) : execCmd ad s (.progress j) = s := by
  simp only [execCmd]
  rw [hga]

theorem execCmd_finish_ok (ad : Adapter) (s : OrchState) (j : Nat)
    (a : OrchAttempt) (r : FittedMetrics) (hga : getAttempt s j = some a)
    (hst : a.status = .running) (had : ad a.spec = .ok r) :
    execCmd ad s (.finish j)
      = dropSubs
          (publish
            (setAttempt s j
              (fun b => { b with status := .completed, result := some r }))
            ⟨j, .completed⟩) j := by
  simp only [execCmd]
  rw [hga]
  show (if a.status = JobStatus.running then _ else s) = _
  rw [if_pos hst, had]

theorem execCmd_finish_err (ad : Adapter) (s : OrchState) (j : Nat)
    (a : OrchAttempt) (f : FitFailureInfo) (hga : getAttempt s j = some a)
    (hst : a.status = .running) (had : ad a.spec = .error f) :
    execCmd ad s (.finish j)
      = dropSubs
          (publish
            (setAttempt s j
              (fun b => { b with status := .failed, failure := some f }))
            ⟨j, .failed⟩) j := by
  simp only [execCmd]
  rw [hga]
  show (if a.status = JobStatus.running then _ else s) = _
  rw [if_pos hst, had]

theorem execCmd_finish_skip (ad : Adapter) (s : OrchState) (j : Nat)
    (a : OrchAttempt) (hga : getAttempt s j = some a)
    (hst : ¬a.status = .running) : execCmd ad s (.finish j) = s := by
  simp only [execCmd]
  rw [hga]
  show (if a.status = JobStatus.running then _ else s) = s
  rw [if_neg hst]

theorem execCmd_finish_none (ad : Adapter) (s : OrchState) (j : Nat)
    (hga : getAttempt s j = none) : execCmd ad s (.finish j) = s := by
  simp only [execCmd]
  rw [hga]

theorem inv_exec (ad : Adapter) (s : OrchState) (c : OrchCmd)
    (h : OrchInv s) : OrchInv (execCmd ad s c) := by
  cases c with
  | submit p spc => exact inv_submit s p spc h
  | start j =>
    cases hga : getAttempt s j with
    | none => rw [execCmd_start_none ad s j hga]; exact h
    | some a =>
      by_cases hst : a.status = .pending
      · rw [execCmd_start_run ad s j a hga hst]
        have hmem : a ∈ s.attempts := List.mem_of_find?_eq_some hga
        have hfields := (h.2.2.1 a hmem).1 hst
        have hpk : publishedKinds s j = [] := by
          have hsh := shapeAt_elim_some s j a (h.2.2.2.2 j) hga
          rw [hst] at hsh
          exact hsh
        refine inv_mark s j a hga
          (fun b => { b with status := .running }) (fun b => rfl)
          (fun b => rfl) (fun b => rfl) ?_ .started ?_ h
        · exact ⟨fun hx => JobStatus.noConfusion hx,
            fun _ => ⟨hfields.1, hfields.2⟩,
            fun hx => JobStatus.noConfusion hx,
            fun hx => JobStatus.noConfusion hx⟩
        · refine ⟨0, ?_⟩
          rw [hpk, List.nil_append, List.replicate]
      · rw [execCmd_start_skip ad s j a hga hst]
        exact h
  | progress j =>
    cases hga : getAttempt s j with
    | none => rw [execCmd_progress_none ad s j hga]; exact h
    | some a =>
      by_cases hst : a.status = .running
      · rw [execCmd_progress_run ad s j a hga hst]
        exact inv_publish_progress s j a hga hst h
      · rw [execCmd_progress_skip ad s j a hga hst]
        exact h
  | finish j =>
    cases hga : getAttempt s j with
    | none => rw [execCmd_finish_none ad s j hga]; exact h
    | some a =>
      by_cases hst : a.status = .running
      · have hmem : a ∈ s.attempts := List.mem_of_find?_eq_some hga
        have hfields := (h.2.2.1 a hmem).2.1 hst
        have hrun : ∃ n, publishedKinds s j
            = .started :: List.replicate n .progress := by
          have hsh := shapeAt_elim_some s j a (h.2.2.2.2 j) hga
          rw [hst] at hsh
          exact hsh
        obtain ⟨n, hn⟩ := hrun
        cases had : ad a.spec with
        | ok r =>
          rw [execCmd_finish_ok ad s j a r hga hst had]
          apply inv_set_subs
          refine inv_mark s j a hga
            (fun b => { b with status := .completed, result := some r })
            (fun b => rfl) (fun b => rfl) (fun b => rfl) ?_ .completed ?_ h
          · exact ⟨fun hx => JobStatus.noConfusion hx,
              fun hx => JobStatus.noConfusion hx,
              fun _ => ⟨rfl, hfields.2⟩,
              fun hx => JobStatus.noConfusion hx⟩
          · refine ⟨n, ?_⟩
            rw [hn, List.cons_append]
        | error f =>
          rw [execCmd_finish_err ad s j a f hga hst had]
          apply inv_set_subs
          refine inv_mark s j a hga
            (fun b => { b with status := .failed, failure := some f })
            (fun b => rfl) (fun b => rfl) (fun b => rfl) ?_ .failed ?_ h
          · exact ⟨fun hx => JobStatus.noConfusion hx,
              fun hx => JobStatus.noConfusion hx,
              fun hx => JobStatus.noConfusion hx,
              fun _ => ⟨rfl, hfields.1⟩⟩
          · refine ⟨n, ?_⟩
            rw [hn, List.cons_append]
      · rw [execCmd_finish_skip ad s j a hga hst]
        exact h
  | subscribe o j => exact inv_set_subs s _ h
  | unsubscribe o j => exact inv_set_subs s _ h

theorem inv_foldl (ad : Adapter) (cmds : List OrchCmd) (s : OrchState)
    (h : OrchInv s) : OrchInv (cmds.foldl (execCmd ad) s) := by
  induction cmds generalizing s with
  | nil => exact h
  | cons c cs ih => exact ih _ (inv_exec ad s c h)

theorem inv_reach (ad : Adapter) (cmds : List OrchCmd) :
    OrchInv (reach ad cmds) :=
  inv_foldl ad cmds initState inv_init

/-! ## Delivered event sequences are prefix-consistent -/

theorem filter_and_sublist (l : List α) (p q : α → Bool) :
    List.Sublist (l.filter (fun x => p x && q x)) (l.filter p) := by
  induction l with
  | nil => exact List.Sublist.refl _
  | cons x xs ih =>
    by_cases hp : p x
    · by_cases hq : q x
      · simp only [List.filter_cons, hp, hq, Bool.and_self, if_true]
        exact List.Sublist.cons₂ x ih
      · have hq' : q x = false := by simpa using hq
        simp only [List.filter_cons, hp, hq', Bool.true_and, if_true,
          Bool.false_eq_true, if_false]
        exact List.Sublist.cons x ih
    · have hp' : p x = false := by simpa using hp
      have hb : (p x && q x) = false := by rw [hp', Bool.false_and]
      simp only [List.filter_cons, hp', hb, Bool.false_eq_true, if_false]
      exact ih

theorem delivered_sublist_published (s : OrchState) (o j : Nat) :
    List.Sublist (deliveredKinds s o j) (publishedKinds s j) := by
  unfold deliveredKinds publishedKinds
  exact List.Sublist.map _
    (filter_and_sublist s.log (fun e => e.1.jobId == j) (fun e => e.2.contains o))

theorem sublist_replicate_self (l : List α) (a : α) (n : Nat)
    (h : List.Sublist l (List.replicate n a)) :
    l = List.replicate l.length a :=
  List.eq_replicate_of_mem (fun _b hb => List.eq_of_mem_replicate (h.subset hb))

theorem orderly_nil : orderlyKinds [] :=
  ⟨[], 0, [], Or.inl rfl, Or.inl rfl, rfl⟩

theorem jobShape_orderly (st : JobStatus) (l : List EventKind)
    (h : jobShape st l) : orderlyKinds l := by
  cases st with
  | pending =>
    rw [h]
    exact orderly_nil
  | running =>
    obtain ⟨n, hn⟩ := h
    exact ⟨[EventKind.started], n, [], Or.inr rfl, Or.inl rfl,
      by rw [hn]; simp⟩
  | completed =>
    obtain ⟨n, hn⟩ := h
    exact ⟨[EventKind.started], n, [EventKind.completed], Or.inr rfl,
      Or.inr (Or.inl rfl), by rw [hn]; simp⟩
  | failed =>
    obtain ⟨n, hn⟩ := h
    exact ⟨[EventKind.started], n, [EventKind.failed], Or.inr rfl,
      Or.inr (Or.inr rfl), by rw [hn]; simp⟩

theorem orderly_sublist (l m : List EventKind) (hm : orderlyKinds m)
    (h : List.Sublist l m) : orderlyKinds l := by
  obtain ⟨st, n, fin, hst, hfin, rfl⟩ := hm
  rcases List.sublist_append_iff.mp h with ⟨l12, l3, rfl, h12, h3⟩
  rcases List.sublist_append_iff.mp h12 with ⟨l1, l2, rfl, h1, h2⟩
  refine ⟨l1, l2.length, l3, ?_, ?_, ?_⟩
  · rcases hst with rfl | rfl
    · exact Or.inl (List.eq_nil_of_sublist_nil h1)
    · exact List.sublist_singleton.mp h1
  · rcases hfin with rfl | rfl | rfl
    · exact Or.inl (List.eq_nil_of_sublist_nil h3)
    · rcases List.sublist_singleton.mp h3 with h | h
      · exact Or.inl h
      · exact Or.inr (Or.inl h)
    · rcases List.sublist_singleton.mp h3 with h | h
      · exact Or.inl h
      · exact Or.inr (Or.inr h)
  · rw [← sublist_replicate_self l2 _ _ h2]

/-! ## History-listing order -/

theorem nodup_range' (s n : Nat) : (List.range' s n).Nodup :=
  (List.pairwise_lt_range' s n).imp (fun h => Nat.ne_of_lt h)

theorem map_version_listByProject (s : OrchState) (p : Nat)
    (h4 : versionsOf s p = List.range' 1 (countProject s.attempts p)) :
    (listByProject s p).map (fun a => a.version)
      = (List.range' 1 (countProject s.attempts p)).reverse := by
  have hperm : List.Perm (listByProject s p)
      (s.attempts.filter (fun a => a.projectId == p)) :=
    List.perm_insertionSort versionDesc _
  have hmapperm : List.Perm
      ((listByProject s p).map (fun a => a.version))
      (List.range' 1 (countProject s.attempts p)) := by
    have h := hperm.map (fun a => a.version)
    rw [show ((s.attempts.filter (fun a => a.projectId == p)).map
        (fun a => a.version)) = versionsOf s p from rfl, h4] at h
    exact h
  have hsorted : List.Pairwise (fun x y : Nat => y ≤ x)
      ((listByProject s p).map (fun a => a.version)) :=
    List.Pairwise.map _ (fun a b hab => hab)
      (List.sorted_insertionSort versionDesc _)
  have hnodup : ((listByProject s p).map (fun a => a.version)).Nodup :=
    List.Perm.nodup hmapperm.symm (nodup_range' 1 _)
  have hgt : List.Pairwise (fun x y : Nat => x > y)
      ((listByProject s p).map (fun a => a.version)) :=
    (List.Pairwise.and hsorted hnodup).imp
      (fun hab => lt_of_le_of_ne hab.1 (Ne.symm hab.2))
  have hrev : List.Pairwise (fun x y : Nat => x > y)
      ((List.range' 1 (countProject s.attempts p)).reverse) := by
    rw [List.pairwise_reverse]
    exact List.pairwise_lt_range' 1 _
  exact List.eq_of_perm_of_sorted
    (hmapperm.trans (List.reverse_perm _).symm) hgt hrev

theorem reverse_range'_getD (k i : Nat) (h : i < k) :
    ((List.range' 1 k).reverse).getD i 0 = k - i := by
  induction k generalizing i with
  | zero => exact absurd h (Nat.not_lt_zero i)
  | succ k ih =>
    rw [List.range'_1_concat, List.reverse_append]
    cases i with
    | zero =>
      simp
      omega
    | succ i =>
      have hik : i < k := by omega
      rw [List.reverse_singleton, List.singleton_append,
        List.getD_cons_succ, ih i hik]
      omega

/-! ## Term-list editing lemmas -/

/-- A placeholder entry for positional (`getD`) statements. -/
def defaultTerm : TermSpec :=
  ⟨"", .linear, none, none, none, none, ""⟩

theorem sameTriple_iff (t s : TermSpec) :
    sameTriple t s.column s.type s.expr = true ↔ termKey t = termKey s := by
  unfold sameTriple termKey
  simp [Prod.ext_iff]
  tauto

theorem sameTriple_false (t s : TermSpec) (h : termKey t ≠ termKey s) :
    sameTriple t s.column s.type s.expr = false := by
  have hne : sameTriple t s.column s.type s.expr ≠ true :=
    fun hh => h ((sameTriple_iff t s).mp hh)
  exact Bool.eq_false_iff.mpr hne

theorem addTerm_nil (s : TermSpec) : addTerm [] s = [s] := rfl

theorem addTerm_cons_pos (x : TermSpec) (xs : List TermSpec) (s : TermSpec)
    (h : sameTriple x s.column s.type s.expr = true) :
    addTerm (x :: xs) s = s :: xs := by
  unfold addTerm
  simp only [List.findIdx?_cons, h, if_true]
  rfl

theorem addTerm_cons_neg (x : TermSpec) (xs : List TermSpec) (s : TermSpec)
    (h : sameTriple x s.column s.type s.expr = false) :
    addTerm (x :: xs) s = x :: addTerm xs s := by
  unfold addTerm
  simp only [List.findIdx?_cons, h, Bool.false_eq_true, if_false,
    List.findIdx?_succ]
  cases hfind :
      xs.findIdx? (fun t => sameTriple t s.column s.type s.expr) with
  | none => rfl
  | some i => rfl

theorem addTerm_mapKey (l : List TermSpec) (s : TermSpec) :
    (addTerm l s).map termKey
      = if termKey s ∈ l.map termKey then l.map termKey
        else l.map termKey ++ [termKey s] := by
  induction l with
  | nil => simp [addTerm_nil]
  | cons x xs ih =>
    by_cases h : termKey x = termKey s
    · rw [addTerm_cons_pos x xs s ((sameTriple_iff x s).mpr h)]
      rw [List.map_cons, List.map_cons,
        if_pos (by rw [h]; exact List.mem_cons_self _ _), h]
    · rw [addTerm_cons_neg x xs s (sameTriple_false x s h)]
      rw [List.map_cons, List.map_cons, ih]
      by_cases hmem : termKey s ∈ xs.map termKey
      · rw [if_pos hmem, if_pos (List.mem_cons_of_mem _ hmem)]
      · rw [if_neg hmem, if_neg ?_, List.cons_append]
        intro hc
        rcases List.mem_cons.mp hc with hc | hc
        · exact h hc.symm
        · exact hmem hc

theorem addTerm_not_mem (l : List TermSpec) (s : TermSpec)
    (h : termKey s ∉ l.map termKey) : addTerm l s = l ++ [s] := by
  induction l with
  | nil => exact addTerm_nil s
  | cons x xs ih =>
    have hx : termKey x ≠ termKey s := by
      intro hc
      exact h (by rw [List.map_cons]; exact hc ▸ List.mem_cons_self _ _)
    rw [addTerm_cons_neg x xs s (sameTriple_false x s hx),
      ih (fun hc => h (by rw [List.map_cons]; exact List.mem_cons_of_mem _ hc)),
      List.cons_append]

theorem addTerm_replace (l : List TermSpec) (s : TermSpec)
    (hmem : termKey s ∈ l.map termKey) :
    (addTerm l s).length = l.length ∧
    (∀ i, termKey (l.getD i defaultTerm) ≠ termKey s →
       (addTerm l s).getD i defaultTerm = l.getD i defaultTerm) ∧
    (∃ j, j < l.length ∧ termKey (l.getD j defaultTerm) = termKey s ∧
       (addTerm l s).getD j defaultTerm = s) := by
  induction l with
  | nil => cases hmem
  | cons x xs ih =>
    by_cases h : termKey x = termKey s
    · rw [addTerm_cons_pos x xs s ((sameTriple_iff x s).mpr h)]
      refine ⟨rfl, ?_, 0, Nat.succ_pos _, h, rfl⟩
      intro i hi
      cases i with
      | zero => exact absurd h hi
      | succ i => rfl
    · have hmem' : termKey s ∈ xs.map termKey := by
        rcases List.mem_cons.mp hmem with hc | hc
        · exact absurd hc.symm h
        · exact hc
      obtain ⟨hlen, hsame, j, hj, hkey, hset⟩ := ih hmem'
      rw [addTerm_cons_neg x xs s (sameTriple_false x s h)]
      refine ⟨by simpa using hlen, ?_, j + 1, Nat.succ_lt_succ hj, hkey, hset⟩
      intro i hi
      cases i with
      | zero => rfl
      | succ i => exact hsame i hi

theorem removeTerm_filter_iff (l : List TermSpec) (c : String) (ty : TermType)
    (e : Option String) (t : TermSpec) :
    t ∈ removeTerm l c ty e ↔
      (t ∈ l ∧ ¬(t.column = c ∧ t.type = ty ∧ t.expr = e)) := by
  unfold removeTerm
  rw [List.mem_filter]
  unfold sameTriple
  simp
  intro _
  tauto

theorem nodupKeys_addTerm (l : List TermSpec) (s : TermSpec)
    (h : (l.map termKey).Nodup) : ((addTerm l s).map termKey).Nodup := by
  rw [addTerm_mapKey]
  by_cases hmem : termKey s ∈ l.map termKey
  · rw [if_pos hmem]
    exact h
  · rw [if_neg hmem]
    apply List.Nodup.append h (List.nodup_singleton _)
    intro x hx hy
    rcases List.mem_singleton.mp hy with rfl
    exact hmem hx

theorem nodupKeys_removeTerm (l : List TermSpec) (c : String) (ty : TermType)
    (e : Option String) (h : (l.map termKey).Nodup) :
    ((removeTerm l c ty e).map termKey).Nodup :=
  List.Nodup.sublist (List.Sublist.map termKey (List.filter_sublist l)) h

theorem nodupKeys_runTermOps (ops : List TermOp) :
    ((runTermOps ops).map termKey).Nodup := by
  unfold runTermOps
  have h : ∀ l : List TermSpec, (l.map termKey).Nodup →
      ((ops.foldl applyTermOp l).map termKey).Nodup := by
    induction ops with
    | nil => exact fun l hl => hl
    | cons op ops ih =>
      intro l hl
      apply ih
      cases op with
      | add s => exact nodupKeys_addTerm l s hl
      | remove c ty e => exact nodupKeys_removeTerm l c ty e hl
  exact h [] List.nodup_nil

/-! ## Concrete inputs used by witnesses and counterexamples -/

/-- An adapter stub whose fit always succeeds. -/
def okAdapter : Adapter := fun _ => Except.ok ⟨120, 42, true, 5⟩

/-- A small run: one full job for project 1 plus a second submission. -/
def demoCmds : List OrchCmd :=
  [.submit 1 11, .subscribe 9 0, .start 0, .progress 0, .finish 0,
   .submit 1 12]

/-- The completed first attempt of `demoCmds`. -/
def demoAttempt : OrchAttempt :=
  ⟨0, 1, 1, 11, .completed, some ⟨120, 42, true, 5⟩, none⟩

/-- A concrete page configuration. -/
def demoConfig : ModelConfig :=
  ⟨some "p1", some "claims.csv", "losses", "poisson", "log"⟩

/-- A completed fit result held by the page before a new submission. -/
def priorFit : FitResult := ⟨some 120, some 300, 1⟩

/-- A linear term on `age`. -/
def demoTerm : TermSpec := ⟨"age", .linear, none, none, none, none, "age [Lin]"⟩

/-- A term with the same (column, type, expr) triple as `demoTerm` but a
different `df`. -/
def demoTerm2 : TermSpec :=
  ⟨"age", .linear, some 3, none, none, none, "age [Lin 3]"⟩

/-- A term with a different triple. -/
def demoTerm3 : TermSpec :=
  ⟨"area", .categorical, none, none, none, none, "area [Cat]"⟩

/-- Page state holding a previously completed fit (version 1 saved). -/
def statePrior : FitPageState :=
  ⟨false, some priorFit, none, some 1, [⟨"m1", 1⟩]⟩

/-! ## Claims -/

/-- C1: for every fit submission, the submit operation creates the attempt
record (status `pending`, no result, no failure) and returns its identifier
at once: the outcome of the submit step is the same for every adapter, in
particular for adapters whose computation never finishes, so submission
never waits on the fit, which runs independently in later steps. -/
theorem submit_returns_immediately :
    ∀ (a1 a2 : Adapter) (cmds : List OrchCmd) (p spc : Nat),
      execCmd a1 (reach a1 cmds) (.submit p spc)
          = execCmd a2 (reach a1 cmds) (.submit p spc) ∧
      getAttempt (submit (reach a1 cmds) p spc).2
          (submit (reach a1 cmds) p spc).1
        = some ⟨(reach a1 cmds).nextId, p,
                countProject (reach a1 cmds).attempts p + 1, spc,
                .pending, none, none⟩ := by
  intro a1 a2 cmds p spc
  constructor
  · rfl
  · have hinv := inv_reach a1 cmds
    have hfresh : getAttempt (reach a1 cmds) (reach a1 cmds).nextId = none :=
      getAttempt_none_of_fresh _ hinv.1 _ (Nat.le_refl _)
    show getAttempt (submit (reach a1 cmds) p spc).2 (reach a1 cmds).nextId = _
    rw [getAttempt_submit, hfresh, Option.none_or, if_pos rfl]

/-- C2: in every reachable state, a completed attempt has its result set
and its failure null, a failed attempt has its failure set and its result
null, and no attempt ever has both result and failure populated. -/
theorem terminal_result_failure_exclusive :
    ∀ (ad : Adapter) (cmds : List OrchCmd) (j : Nat) (att : OrchAttempt),
      getAttempt (reach ad cmds) j = some att →
      (att.status = .completed → att.result.isSome ∧ att.failure = none) ∧
      (att.status = .failed → att.failure.isSome ∧ att.result = none) ∧
      ¬(att.result.isSome ∧ att.failure.isSome) := by
  intro ad cmds j att hga
  have hmem : att ∈ (reach ad cmds).attempts := List.mem_of_find?_eq_some hga
  have hsi := (inv_reach ad cmds).2.2.1 att hmem
  refine ⟨hsi.2.2.1, hsi.2.2.2, ?_⟩
  rintro ⟨hr, hf⟩
  cases hstat : att.status with
  | pending =>
    rw [(hsi.1 hstat).1] at hr
    exact absurd hr (by simp)
  | running =>
    rw [(hsi.2.1 hstat).1] at hr
    exact absurd hr (by simp)
  | completed =>
    rw [(hsi.2.2.1 hstat).2] at hf
    exact absurd hf (by simp)
  | failed =>
    rw [(hsi.2.2.2 hstat).2] at hr
    exact absurd hr (by simp)

theorem terminal_result_failure_exclusive_witness :
    getAttempt (reach okAdapter demoCmds) 0 = some demoAttempt ∧
    ((demoAttempt.status = .completed →
        demoAttempt.result.isSome ∧ demoAttempt.failure = none) ∧
     (demoAttempt.status = .failed →
        demoAttempt.failure.isSome ∧ demoAttempt.result = none) ∧
     ¬(demoAttempt.result.isSome ∧ demoAttempt.failure.isSome)) :=
  ⟨by decide,
   terminal_result_failure_exclusive okAdapter demoCmds 0 demoAttempt
     (by decide)⟩

/-- C3: in every reachable state, the versions recorded for a project are
exactly `1..N` in record order — without duplicates, strictly increasing,
gapless from 1; command sequences are arbitrary interleavings of
submissions (the serialization point of version allocation). -/
theorem versions_gapless_increasing :
    ∀ (ad : Adapter) (cmds : List OrchCmd) (p : Nat),
      versionsOf (reach ad cmds) p
          = List.range' 1 (countProject (reach ad cmds).attempts p) ∧
      (versionsOf (reach ad cmds) p).Nodup ∧
      List.Chain' (· < ·) (versionsOf (reach ad cmds) p) := by
  intro ad cmds p
  have h := (inv_reach ad cmds).2.2.2.1 p
  refine ⟨h, ?_, ?_⟩
  · rw [h]
    exact nodup_range' 1 _
  · rw [h]
    exact List.Pairwise.chain' (List.pairwise_lt_range' 1 _)

/-- C4: for every job and every observer, the delivered event sequence is
prefix-consistent: an optional `started` first, then progress events, then
at most one terminal (`completed` or `failed`) event, and nothing after
the terminal event. -/
theorem observer_events_prefix_consistent :
    ∀ (ad : Adapter) (cmds : List OrchCmd) (o j : Nat),
      orderlyKinds (deliveredKinds (reach ad cmds) o j) := by
  intro ad cmds o j
  have hinv := inv_reach ad cmds
  have hpub : orderlyKinds (publishedKinds (reach ad cmds) j) := by
    cases hga : getAttempt (reach ad cmds) j with
    | none =>
      rw [shapeAt_elim_none _ _ (hinv.2.2.2.2 j) hga]
      exact orderly_nil
    | some a =>
      exact jobShape_orderly a.status _
        (shapeAt_elim_some _ _ a (hinv.2.2.2.2 j) hga)
  exact orderly_sublist _ _ hpub (delivered_sublist_published _ o j)

/-- C5 counterexample: the page holds a completed result (`statePrior`),
a new fit is submitted and fails; the failure is rendered (`fitError` set)
but the previously held completed result state has been erased
(`fitResult` was cleared at submission and stays `none`). -/
theorem failed_fit_clears_prior_result_cex :
    (handleFit (some demoConfig) [demoTerm] (.error "fit exploded") (.ok 2)
        [] statePrior).1.fitError = some "fit exploded" ∧
    statePrior.fitResult = some priorFit ∧
    (handleFit (some demoConfig) [demoTerm] (.error "fit exploded") (.ok 2)
        [] statePrior).1.fitResult = none := by
  refine ⟨?_, rfl, ?_⟩ <;> decide

/-- C5 (amended): a failed fit renders the failure message and leaves the
version history and current-version marker untouched, so the prior
completed version remains selectable from the history panel; the in-page
completed result state, however, is cleared when the new fit is submitted
and is not redisplayed alongside the failure. -/
theorem failed_fit_preserves_history :
    ∀ (pid : Option String) (dp : String), ¬dp.isEmpty = true →
    ∀ (resp fam lnk : String) (t : TermSpec) (ts : List TermSpec)
      (e : String) (saveResp : Except String Nat)
      (histResp : List ModelSummary) (s : FitPageState),
      (handleFit (some ⟨pid, some dp, resp, fam, lnk⟩) (t :: ts) (.error e)
          saveResp histResp s).1
        = { s with fitting := false, fitResult := none,
                   fitError := some (errMessage e) } := by
  intro pid dp hdp resp fam lnk t ts e saveResp histResp s
  have hdp' : dp.isEmpty = false := Bool.eq_false_iff.mpr hdp
  unfold handleFit
  simp [truthy, hdp']

theorem failed_fit_preserves_history_witness :
    ¬(("claims.csv" : String).isEmpty = true) ∧
    (handleFit (some demoConfig) [demoTerm] (.error "boom") (.ok 2)
        [] statePrior).1
      = { statePrior with fitting := false, fitResult := none,
                          fitError := some (errMessage "boom") } :=
  ⟨by decide,
   failed_fit_preserves_history (some "p1") "claims.csv" (by decide)
     "losses" "poisson" "log" demoTerm [] "boom" (.ok 2) [] statePrior⟩

/-- C6 counterexample: the failure surface carries no kind and its
remediation suggestion is one fixed string, identical for failures of
different kinds, so the suggestion is not kind-specific. -/
theorem failure_suggestion_not_kind_specific_cex :
    (fitFailureView "DidNotConverge: maximum iterations reached").suggestion
      = (fitFailureView "InvalidDesign: singular design matrix").suggestion ∧
    (fitFailureView "DidNotConverge: maximum iterations reached").suggestion
      = "Check your terms and try again" :=
  ⟨rfl, rfl⟩

/-- C6 (amended): every fit failure surfaced to the user carries the raw
message — an empty message is replaced by the fixed generic
"Model fit failed", so unclassified or messageless failures are not
dropped — together with the single fixed suggestion string
"Check your terms and try again", which is the same for every failure; no
taxonomy kind accompanies it. -/
theorem failure_surface_generic :
    ∀ (e : String),
      (fitFailureView (errMessage e)).suggestion
          = "Check your terms and try again" ∧
      (¬e.isEmpty = true → (fitFailureView (errMessage e)).message = e) ∧
      (e.isEmpty = true →
        (fitFailureView (errMessage e)).message = "Model fit failed") := by
  intro e
  refine ⟨rfl, ?_, ?_⟩
  · intro h
    have h' : e.isEmpty = false := Bool.eq_false_iff.mpr h
    unfold fitFailureView errMessage
    simp [h']
  · intro h
    unfold fitFailureView errMessage
    simp [h]

theorem failure_surface_generic_witness :
    ((fitFailureView (errMessage "boom")).suggestion
        = "Check your terms and try again") ∧
    ¬(("boom" : String).isEmpty = true) ∧
    ((fitFailureView (errMessage "boom")).message = "boom") ∧
    (("" : String).isEmpty = true) ∧
    ((fitFailureView (errMessage "")).message = "Model fit failed") :=
  ⟨(failure_surface_generic "boom").1, by decide,
   (failure_surface_generic "boom").2.1 (by decide), by decide,
   (failure_surface_generic "").2.2 (by decide)⟩

/-- C7: with an empty term list the fit handler returns before doing
anything — the state is unchanged and no API request is issued — and every
request any call does issue carries a non-empty serialized term list, so a
fit is only ever started with a non-empty predictor set. -/
theorem fit_requires_nonempty_terms :
    (∀ (config : Option ModelConfig) (fitResp : Except String FitResult)
       (saveResp : Except String Nat) (histResp : List ModelSummary)
       (s : FitPageState),
       handleFit config [] fitResp saveResp histResp s = (s, [])) ∧
    (∀ (config : Option ModelConfig) (terms : List TermSpec)
       (fitResp : Except String FitResult) (saveResp : Except String Nat)
       (histResp : List ModelSummary) (s : FitPageState),
       ((handleFit config terms fitResp saveResp histResp s).2.all
         (fun r => !(r.terms.isEmpty))) = true) := by
  constructor
  · intro config fitResp saveResp histResp s
    cases config with
    | none => rfl
    | some cfg =>
      unfold handleFit
      simp
  · intro config terms fitResp saveResp histResp s
    cases config with
    | none => rfl
    | some cfg =>
      unfold handleFit
      by_cases hguard : (!(truthy cfg.datasetPath) || terms.isEmpty) = true
      · simp [hguard]
      · have hne : terms.isEmpty = false := by
          rcases Bool.or_eq_false_iff.mp (Bool.eq_false_iff.mpr hguard)
            with ⟨_, h2⟩
          exact h2
        have hsz : (serializeTerms terms).isEmpty = false := by
          cases terms with
          | nil => cases hne
          | cons t ts => rfl
        have hnil : ¬(serializeTerms terms = []) := by
          cases terms with
          | nil => cases hne
          | cons t ts => simp [serializeTerms]
        simp only [hguard, Bool.false_eq_true, if_false]
        cases fitResp with
        | error e => simp [hsz, ApiRequest.terms, hnil]
        | ok data =>
          by_cases hp : truthy cfg.projectId = true
          · cases saveResp with
            | error e2 => simp [hp, hsz, ApiRequest.terms, hnil]
            | ok v => simp [hp, hsz, ApiRequest.terms, hnil]
          · have hp' : truthy cfg.projectId = false := Bool.eq_false_iff.mpr hp
            simp [hp', hsz, ApiRequest.terms, hnil]

/-- C8: in every reachable state, the history listing of a project is
ordered newest-version-first: its version column is exactly `N, N-1, .., 1`,
strictly decreasing, the first element carries the highest version, and
each next element carries the immediate predecessor version. -/
theorem history_newest_version_first :
    ∀ (ad : Adapter) (cmds : List OrchCmd) (p : Nat),
      ((listByProject (reach ad cmds) p).map (fun a => a.version)
          = (List.range' 1 (countProject (reach ad cmds).attempts p)).reverse)
        ∧
      List.Chain' (· > ·)
        ((listByProject (reach ad cmds) p).map (fun a => a.version)) ∧
      (∀ i, i + 1 < (listByProject (reach ad cmds) p).length →
        ((listByProject (reach ad cmds) p).map
            (fun a => a.version)).getD (i + 1) 0 + 1
          = ((listByProject (reach ad cmds) p).map
              (fun a => a.version)).getD i 0) ∧
      (∀ att ∈ listByProject (reach ad cmds) p,
        att.version ≤ ((listByProject (reach ad cmds) p).map
            (fun a => a.version)).getD 0 0) := by
  intro ad cmds p
  have hmap := map_version_listByProject (reach ad cmds) p
    ((inv_reach ad cmds).2.2.2.1 p)
  have hlen : (listByProject (reach ad cmds) p).length
      = countProject (reach ad cmds).attempts p := by
    have h := congrArg List.length hmap
    simpa using h
  refine ⟨hmap, ?_, ?_, ?_⟩
  · rw [hmap]
    apply List.Pairwise.chain'
    rw [List.pairwise_reverse]
    exact List.pairwise_lt_range' 1 _
  · intro i hi
    rw [hlen] at hi
    rw [hmap, reverse_range'_getD _ _ (by omega),
      reverse_range'_getD _ _ (by omega)]
    omega
  · intro att hatt
    have hv : att.version
        ∈ (listByProject (reach ad cmds) p).map (fun a => a.version) :=
      List.mem_map_of_mem _ hatt
    rw [hmap] at hv
    have hb := List.mem_range'_1.mp (List.mem_reverse.mp hv)
    have hk : 0 < countProject (reach ad cmds).attempts p := by omega
    rw [hmap, reverse_range'_getD _ 0 hk]
    omega

theorem history_newest_version_first_witness :
    (0 + 1 < (listByProject (reach okAdapter demoCmds) 1).length) ∧
    (((listByProject (reach okAdapter demoCmds) 1).map
        (fun a => a.version)).getD 1 0 + 1
      = ((listByProject (reach okAdapter demoCmds) 1).map
          (fun a => a.version)).getD 0 0) ∧
    (demoAttempt ∈ listByProject (reach okAdapter demoCmds) 1) ∧
    (demoAttempt.version ≤ ((listByProject (reach okAdapter demoCmds) 1).map
        (fun a => a.version)).getD 0 0) :=
  ⟨by decide,
   (history_newest_version_first okAdapter demoCmds 1).2.2.1 0 (by decide),
   by decide,
   (history_newest_version_first okAdapter demoCmds 1).2.2.2 demoAttempt
     (by decide)⟩

/-- C9: after any sequence of `addTerm` / `removeTerm` edits from the empty
list, no two entries share a (column, type, expr) triple; `addTerm` with an
already-present triple replaces the matching entry in place (length and key
order unchanged, all other positions untouched), otherwise it appends; and
`removeTerm` removes exactly the matching entries, keeping every other
entry in order. -/
theorem term_list_key_unique :
    (∀ ops : List TermOp, ((runTermOps ops).map termKey).Nodup) ∧
    (∀ (l : List TermSpec) (s : TermSpec), termKey s ∈ l.map termKey →
       (addTerm l s).length = l.length ∧
       (addTerm l s).map termKey = l.map termKey ∧
       (∀ i, termKey (l.getD i defaultTerm) ≠ termKey s →
          (addTerm l s).getD i defaultTerm = l.getD i defaultTerm) ∧
       (∃ j, j < l.length ∧ termKey (l.getD j defaultTerm) = termKey s ∧
          (addTerm l s).getD j defaultTerm = s)) ∧
    (∀ (l : List TermSpec) (s : TermSpec), termKey s ∉ l.map termKey →
       addTerm l s = l ++ [s]) ∧
    (∀ (l : List TermSpec) (c : String) (ty : TermType) (e : Option String),
       List.Sublist (removeTerm l c ty e) l ∧
       ∀ t, t ∈ removeTerm l c ty e ↔
         (t ∈ l ∧ ¬(t.column = c ∧ t.type = ty ∧ t.expr = e))) := by
  refine ⟨nodupKeys_runTermOps, ?_, addTerm_not_mem, ?_⟩
  · intro l s hmem
    obtain ⟨hlen, hsame, hex⟩ := addTerm_replace l s hmem
    refine ⟨hlen, ?_, hsame, hex⟩
    rw [addTerm_mapKey, if_pos hmem]
  · intro l c ty e
    exact ⟨List.filter_sublist l, removeTerm_filter_iff l c ty e⟩

theorem term_list_key_unique_witness :
    (termKey demoTerm2 ∈ [demoTerm].map termKey) ∧
    ((addTerm [demoTerm] demoTerm2).length = [demoTerm].length) ∧
    ((addTerm [demoTerm] demoTerm2).map termKey = [demoTerm].map termKey) ∧
    (termKey ([demoTerm].getD 1 defaultTerm) ≠ termKey demoTerm2) ∧
    ((addTerm [demoTerm] demoTerm2).getD 1 defaultTerm
       = [demoTerm].getD 1 defaultTerm) ∧
    (termKey demoTerm3 ∉ [demoTerm].map termKey) ∧
    (addTerm [demoTerm] demoTerm3 = [demoTerm] ++ [demoTerm3]) ∧
    (demoTerm ∈ removeTerm [demoTerm] "area" .categorical none) :=
  ⟨by decide,
   (term_list_key_unique.2.1 [demoTerm] demoTerm2 (by decide)).1,
   (term_list_key_unique.2.1 [demoTerm] demoTerm2 (by decide)).2.1,
   by decide,
   (term_list_key_unique.2.1 [demoTerm] demoTerm2 (by decide)).2.2.1 1
     (by decide),
   by decide,
   term_list_key_unique.2.2.1 [demoTerm] demoTerm3 (by decide),
   ((term_list_key_unique.2.2.2 [demoTerm] "area" .categorical none).2
       demoTerm).mpr ⟨by decide, by decide⟩⟩

/-- C10: changing the family discards any link override and makes the
effective link the canonical link of the new family (gaussian to identity;
poisson, gamma, tweedie, quasipoisson, negbinomial to log; binomial,
quasibinomial to logit); a link selected after the family change takes
effect; and the effective link can differ from the canonical link only
when an override is present. -/
theorem family_change_resets_link :
    (∀ (s : ConfigLinkState) (f : Family),
       (handleFamilyChange s f).link = none ∧
       effectiveLink (handleFamilyChange s f) = some (CANONICAL_LINKS f)) ∧
    (CANONICAL_LINKS .gaussian = .identity ∧ CANONICAL_LINKS .poisson = .log ∧
     CANONICAL_LINKS .gamma = .log ∧ CANONICAL_LINKS .tweedie = .log ∧
     CANONICAL_LINKS .quasipoisson = .log ∧
     CANONICAL_LINKS .negbinomial = .log ∧
     CANONICAL_LINKS .binomial = .logit ∧
     CANONICAL_LINKS .quasibinomial = .logit) ∧
    (∀ (s : ConfigLinkState) (f : Family) (v : Link),
       effectiveLink (handleLinkSelect (handleFamilyChange s f) v) = some v) ∧
    (∀ s : ConfigLinkState,
       effectiveLink s ≠ canonicalLink s → s.link.isSome = true) := by
  refine ⟨fun s f => ⟨rfl, rfl⟩,
    ⟨rfl, rfl, rfl, rfl, rfl, rfl, rfl, rfl⟩, ?_, ?_⟩
  · intro s f v
    have hsel : handleLinkSelect (handleFamilyChange s f) v
        = ⟨some f, if CANONICAL_LINKS f = v then none else some v⟩ := by
      unfold handleLinkSelect handleFamilyChange canonicalLink
      by_cases h : CANONICAL_LINKS f = v
      · simp [h]
      · simp [h]
    rw [hsel]
    by_cases h : CANONICAL_LINKS f = v
    · rw [if_pos h]
      unfold effectiveLink canonicalLink
      simp [h]
    · rw [if_neg h]
      rfl
  · intro s h
    cases hl : s.link with
    | some l => rfl
    | none =>
      exfalso
      apply h
      unfold effectiveLink
      rw [hl]

theorem family_change_resets_link_witness :
    (effectiveLink ⟨some .poisson, some .inverse⟩
        ≠ canonicalLink ⟨some .poisson, some .inverse⟩) ∧
    ((⟨some .poisson, some .inverse⟩ : ConfigLinkState).link.isSome = true) :=
  ⟨by decide,
   family_change_resets_link.2.2.2 ⟨some .poisson, some .inverse⟩ (by decide)⟩

end Atelier
